import Mathlib

/-!
Shallow embedding of the speech playback and word-tracking controller of the
Image-Text-Reader extension (class TTSManager in content/content.js and
utils/tts.js, which are textually identical), plus the history store
(StorageManager.addHistoryEntry in utils/storage.js and its background copy).

Strings are embedded as List Char.  The JavaScript call
text.split(/\s+/) is embedded by splitWs below: separators are maximal runs
of whitespace characters, an empty leading segment appears when the string
starts with whitespace, an empty trailing segment appears when it ends with
whitespace, and the empty string splits to the one-element list [[]].
The whitespace class is Char.isWhitespace (space, tab, carriage return,
newline), the ASCII core of the JavaScript regex class.
-/

namespace ImageTextReader
/-- Prepend a character to the first segment of a split result, starting a
new first segment when the result is empty.  Mirrors how a non-whitespace
character extends the current token of the split. -/
def consHead (c : Char) : List (List Char) → List (List Char)
  | [] => [[c]]
  | t :: ts => (c :: t) :: ts

/-- Worker for splitWs.  The flag records whether the scanner is currently
inside a whitespace run (so further whitespace extends the same separator
instead of opening a new empty segment). -/
def splitWsAux : Bool → List Char → List (List Char)
  | _, [] => [[]]
  | skipping, c :: cs =>
    if c.isWhitespace then
      if skipping then splitWsAux true cs else [] :: splitWsAux true cs
    else
      consHead c (splitWsAux false cs)

/-- Embedding of the JavaScript expression text.split(/\s+/). -/
def splitWs (s : List Char) : List (List Char) :=
  splitWsAux false s

/-- Number of maximal whitespace runs in a string, given whether the
character just before the string was whitespace. -/
def wsRunsAux : Bool → List Char → Nat
  | _, [] => 0
  | prevWs, c :: cs =>
    if c.isWhitespace then (if prevWs then 0 else 1) + wsRunsAux true cs
    else wsRunsAux false cs

/-- The word index recomputed by the onboundary handler: the length of
currentText.substring(0, charIndex).split(/\s+/) minus one. -/
def boundaryWordIndex (t : List Char) (off : Nat) : Nat :=
  (splitWs (t.take off)).length - 1

/-- An engine voice as returned by speechSynthesis.getVoices(). -/
structure Voice where
  name : String
  lang : String
deriving DecidableEq, Repr

/-- A SpeechSynthesisUtterance as configured by TTSManager.speak: the text,
the rate, and the voice that was set on it (none when the default-voice path
was taken).  The sid field is a model-level session identifier: the n-th
speak call since construction gets sid n, so that callback invocations can
be attributed to the session whose callbacks they are. -/
structure Utt where
  sid : Nat
  text : List Char
  rate : ℚ
  voice : Option String
deriving DecidableEq, Repr

/-- The TTSManager instance state.  Fields utterance, currentText, isPlaying,
currentWord, wordIndex, words mirror the JavaScript fields of the same
names.  The callbacks onWordChange and onEnd are function values in the
source; the embedding stores the sid of the session that supplied them
(none embeds a null callback), and callback invocations are emitted as
events tagged with that sid.  engineCurrent is the engine-side current
utterance: the speech engine delivers boundary and completion events only
for the utterance it currently holds, and cancel removes that utterance so
that its later events are suppressed (the suppression the source relies
on).  nextSid is the model-level fresh-session counter. -/
structure St where
  utterance : Option Utt
  currentText : List Char
  isPlaying : Bool
  currentWord : Option (List Char)
  wordIndex : Nat
  words : List (List Char)
  onWordChange : Option Nat
  onEnd : Option Nat
  engineCurrent : Option Nat
  nextSid : Nat
deriving DecidableEq, Repr

/-- Observable events: commands sent to the speech engine, and callback
invocations (tagged with the sid of the session that supplied the
callback). -/
inductive Ev where
  | engineCancel
  | engineSpeak (text : List Char) (rate : ℚ) (voice : Option String)
  | enginePause
  | engineResume
  | wordChange (owner : Nat) (word : Option (List Char)) (idx : Nat)
  | ended (owner : Nat)
deriving DecidableEq, Repr

/-- External stimuli: the controller operations invoked by callers, and the
engine-originated events (word boundary with its charIndex, and natural
completion).  A speak action records whether the caller supplied the
onWordChange and onEnd callbacks. -/
inductive Act where
  | speak (text : List Char) (rate : Option ℚ) (voiceName : Option String)
      (hasWordChange hasEnd : Bool)
  | stop
  | pause
  | resume
  | toggle
  | boundary (isWord : Bool) (charIndex : Nat)
  | complete
deriving DecidableEq, Repr

/-- The state built by the TTSManager constructor. -/
def initSt : St :=
  { utterance := none
    currentText := []
    isPlaying := false
    currentWord := some []
    wordIndex := 0
    words := []
    onWordChange := none
    onEnd := none
    engineCurrent := none
    nextSid := 0 }

/-- TTSManager.stop: synth.cancel(), then clear isPlaying, utterance,
currentText, wordIndex, words.  The callbacks and currentWord are not
cleared by the source and are therefore not cleared here. -/
def stopStep (s : St) : St × List Ev :=
  ({ s with
      isPlaying := false
      utterance := none
      currentText := []
      wordIndex := 0
      words := []
      engineCurrent := none },
   [Ev.engineCancel])

/-- The JavaScript default expression options.rate || 1.0 (a rate of 0 is
falsy and also falls back to 1.0). -/
def rateD : Option ℚ → ℚ
  | none => 1
  | some r => if r = 0 then 1 else r

/-- Voice resolution in TTSManager.speak: only a truthy (present, non-empty)
voiceName is looked up; the voice is set only on an exact name match, and a
miss silently leaves the utterance with no voice. -/
def resolveVoice (voices : List Voice) : Option String → Option String
  | none => none
  | some n =>
    if n = "" then none
    else
      match voices.find? (fun v => v.name == n) with
      | some v => some v.name
      | none => none

/-- TTSManager.speak with the supplied callbacks given as owner tags
(wc, ed).  It first runs stop (whose engine cancel suppresses any pending
completion of the prior utterance), then stores text and callbacks, splits
the text into words, resets wordIndex, builds the utterance with the
defaulted rate and the resolved voice, submits it, and marks the session
playing. -/
def speakRaw (voices : List Voice) (s : St) (t : List Char) (orate : Option ℚ)
    (ovn : Option String) (wc ed : Option Nat) : St × List Ev :=
  let s0 := (stopStep s).1
  let sid := s0.nextSid
  ({ s0 with
      currentText := t
      onWordChange := wc
      onEnd := ed
      words := splitWs t
      wordIndex := 0
      utterance := some ⟨sid, t, rateD orate, resolveVoice voices ovn⟩
      isPlaying := true
      engineCurrent := some sid
      nextSid := sid + 1 },
   [Ev.engineCancel, Ev.engineSpeak t (rateD orate) (resolveVoice voices ovn)])

/-- TTSManager.speak as invoked by a caller: the callbacks it supplies are
owned by the new session. -/
def speakStep (voices : List Voice) (s : St) (t : List Char) (orate : Option ℚ)
    (ovn : Option String) (hwc hed : Bool) : St × List Ev :=
  speakRaw voices s t orate ovn
    (if hwc then some s.nextSid else none)
    (if hed then some s.nextSid else none)

/-- TTSManager.pause: no-op unless playing; otherwise synth.pause() and
isPlaying := false.  Session state is not cleared. -/
def pauseStep (s : St) : St × List Ev :=
  if s.isPlaying then ({ s with isPlaying := false }, [Ev.enginePause])
  else (s, [])

/-- TTSManager.resume: no-op unless not playing and an utterance exists;
otherwise synth.resume() and isPlaying := true. -/
def resumeStep (s : St) : St × List Ev :=
  if !s.isPlaying && s.utterance.isSome then
    ({ s with isPlaying := true }, [Ev.engineResume])
  else (s, [])

/-- The utterance onboundary handler.  The engine delivers the event only
while it still holds a current utterance (a cancelled utterance emits no
further events).  For a word event the handler recomputes wordIndex from
the character index, looks up currentWord, and invokes onWordChange when it
was supplied. -/
def boundaryStep (s : St) (isWord : Bool) (charIndex : Nat) : St × List Ev :=
  match s.engineCurrent with
  | none => (s, [])
  | some _ =>
    if isWord then
      let idx := boundaryWordIndex s.currentText charIndex
      let w := s.words.get? idx
      ({ s with wordIndex := idx, currentWord := w },
       match s.onWordChange with
       | some o => [Ev.wordChange o w idx]
       | none => [])
    else (s, [])

/-- The utterance onend handler, delivered only for the utterance the
engine still holds (natural completion; a cancelled utterance is removed
and its completion is suppressed).  Completion finishes the utterance on
the engine side, sets isPlaying false, and invokes onEnd when supplied. -/
def completeStep (s : St) : St × List Ev :=
  match s.engineCurrent with
  | none => (s, [])
  | some _ =>
    ({ s with isPlaying := false, engineCurrent := none },
     match s.onEnd with
     | some o => [Ev.ended o]
     | none => [])

/-- TTSManager.togglePlayPause. -/
def toggleStep (s : St) : St × List Ev :=
  if s.isPlaying then pauseStep s else resumeStep s

/-- One controller operation or engine event. -/
def step (voices : List Voice) (s : St) : Act → St × List Ev
  | .speak t orate ovn hwc hed => speakStep voices s t orate ovn hwc hed
  | .stop => stopStep s
  | .pause => pauseStep s
  | .resume => resumeStep s
  | .toggle => toggleStep s
  | .boundary w i => boundaryStep s w i
  | .complete => completeStep s

/-- Run a sequence of operations and events, collecting all emitted
events. -/
def run (voices : List Voice) : St → List Act → St × List Ev
  | s, [] => (s, [])
  | s, a :: rest =>
    let p := step voices s a
    let q := run voices p.1 rest
    (q.1, p.2 ++ q.2)

/-- Number of onEnd invocations attributed to session sid in an event
list. -/
def countEnd (sid : Nat) : List Ev → Nat
  | [] => 0
  | Ev.ended k :: rest => (if k = sid then 1 else 0) + countEnd sid rest
  | _ :: rest => countEnd sid rest

/-- The word indices passed to onWordChange, in order of invocation. -/
def wcIndices : List Ev → List Nat
  | [] => []
  | Ev.wordChange _ _ i :: rest => i :: wcIndices rest
  | _ :: rest => wcIndices rest

/-- TTSManager.isCurrentlyPlaying. -/
def isCurrentlyPlaying (s : St) : Bool :=
  s.isPlaying

/-- TTSManager.changeRate.  The source guards on this.utterance, captures
wasPlaying and wordIndex, calls this.stop() (which clears this.words and
sets this.utterance to null), and only then computes the remaining text
from this.words and reads this.utterance.voice.  Reading .voice on the
null utterance throws a TypeError, embedded as the value none. -/
def changeRate (voices : List Voice) (s : St) (rate : ℚ) :
    Option (St × List Ev) :=
  match s.utterance with
  | none => some (s, [])
  | some _ =>
    let wasPlaying := s.isPlaying
    let currentIndex := s.wordIndex
    let p := stopStep s
    let s1 := p.1
    let remainingText := List.intercalate [' '] (s1.words.drop currentIndex)
    match s1.utterance with
    | none => none
    | some u =>
      let q := speakRaw voices s1 remainingText (some rate) u.voice
        s1.onWordChange s1.onEnd
      let r := if !wasPlaying then pauseStep q.1 else (q.1, [])
      some (r.1, p.2 ++ q.2 ++ r.2)

/-- A history entry as passed to StorageManager.addHistoryEntry by the
content script. -/
structure HistoryEntryInput where
  url : String
  timestamp : Nat
  extractedText : String
deriving DecidableEq, Repr

/-- A stored history entry, with the generated id. -/
structure HistoryEntry where
  id : String
  url : String
  timestamp : Nat
  extractedText : String
deriving DecidableEq, Repr

/-- StorageManager.addHistoryEntry (identical in utils/storage.js and the
background copy): generate an id from the current time, unshift the tagged
entry onto the stored history, and keep only the first 100 entries.  The
chrome.storage round trip is embedded as the pure list transformation on
the stored history. -/
def addHistoryEntry (now : Nat) (entry : HistoryEntryInput)
    (history : List HistoryEntry) : List HistoryEntry :=
  let newEntry : HistoryEntry :=
    ⟨toString now, entry.url, entry.timestamp, entry.extractedText⟩
  (newEntry :: history).take 100

/-- The bookkeeping invariant of the embedding: the current engine
utterance and the stored onEnd callback both come from an already-issued
session id, and the engine utterance (when present) is the session whose
callbacks are stored. -/
def Inv (s : St) : Prop :=
  (∀ k, s.engineCurrent = some k → k < s.nextSid) ∧
  (∀ k, s.engineCurrent = some k → s.onEnd = none ∨ s.onEnd = some k) ∧
  (∀ o, s.onEnd = some o → o < s.nextSid)

/-- Session sid is finished on the engine side: it was issued, and the
engine no longer holds it (it was stopped, superseded, or completed). -/
def Dead (sid : Nat) (s : St) : Prop :=
  sid < s.nextSid ∧ s.engineCurrent ≠ some sid

def c1a : List Act := [Act.speak ("hi".toList) none none false true]

def c1b : List Act := [Act.stop, Act.complete]

def c2state : St :=
  (run [] initSt [Act.speak ("one two three four".toList) none none true true,
    Act.boundary true 4]).1

def c3state : St :=
  (speakStep [] initSt ("The quick brown fox".toList) none none true true).1

def c6acts : List Act :=
  [Act.speak ("The quick brown fox".toList) (some 1) none true true,
   Act.boundary true 4, Act.boundary true 16, Act.complete]

def c9state : St := (speakStep [] initSt ("hi there".toList) none none true true).1

theorem consHead_ne_nil (c : Char) (l : List (List Char)) : consHead c l ≠ [] := by
  cases l <;> simp [consHead]

theorem consHead_length (c : Char) (l : List (List Char)) (h : l ≠ []) :
    (consHead c l).length = l.length := by
  cases l with
  | nil => exact absurd rfl h
  | cons t ts => simp [consHead]

theorem splitWsAux_ne_nil (s : List Char) : ∀ b : Bool, splitWsAux b s ≠ [] := by
  induction s with
  | nil => intro b; simp [splitWsAux]
  | cons c cs ih =>
    intro b
    by_cases hc : c.isWhitespace
    · cases b <;> simp [splitWsAux, hc, ih]
    · simp only [splitWsAux, hc, if_false]
      exact consHead_ne_nil c (splitWsAux false cs)

theorem splitWsAux_length (s : List Char) :
    ∀ b : Bool, (splitWsAux b s).length = wsRunsAux b s + 1 := by
  induction s with
  | nil => intro b; simp [splitWsAux, wsRunsAux]
  | cons c cs ih =>
    intro b
    by_cases hc : c.isWhitespace
    · cases b
      all_goals simp [splitWsAux, wsRunsAux, hc, ih]
      all_goals omega
    · have h1 : splitWsAux b (c :: cs) = consHead c (splitWsAux false cs) := by
        simp [splitWsAux, hc]
      have h2 : wsRunsAux b (c :: cs) = wsRunsAux false cs := by
        simp [wsRunsAux, hc]
      rw [h1, h2, consHead_length c _ (splitWsAux_ne_nil cs false), ih false]

theorem wsRunsAux_take_le (s : List Char) :
    ∀ (b : Bool) (n : Nat), wsRunsAux b (s.take n) ≤ wsRunsAux b s := by
  induction s with
  | nil => intro b n; simp
  | cons c cs ih =>
    intro b n
    cases n with
    | zero => simp [wsRunsAux]
    | succ m =>
      by_cases hc : c.isWhitespace
      · simp only [List.take_succ_cons, wsRunsAux, hc, if_true]
        exact Nat.add_le_add_left (ih true m) _
      · simp only [List.take_succ_cons, wsRunsAux, hc, if_false]
        exact ih false m

theorem wsRunsAux_take_mono (s : List Char) (b : Bool) {n m : Nat} (h : n ≤ m) :
    wsRunsAux b (s.take n) ≤ wsRunsAux b (s.take m) := by
  have heq : s.take n = (s.take m).take n := by
    rw [List.take_take, Nat.min_eq_left h]
  rw [heq]
  exact wsRunsAux_take_le (s.take m) b n

theorem boundaryWordIndex_eq_runs (t : List Char) (off : Nat) :
    boundaryWordIndex t off = wsRunsAux false (t.take off) := by
  simp [boundaryWordIndex, splitWs, splitWsAux_length]

theorem boundaryWordIndex_mono (t : List Char) {o1 o2 : Nat} (h : o1 ≤ o2) :
    boundaryWordIndex t o1 ≤ boundaryWordIndex t o2 := by
  rw [boundaryWordIndex_eq_runs, boundaryWordIndex_eq_runs]
  exact wsRunsAux_take_mono t false h

theorem boundaryWordIndex_lt_length (t : List Char) (off : Nat) :
    boundaryWordIndex t off < (splitWs t).length := by
  rw [boundaryWordIndex_eq_runs, splitWs, splitWsAux_length]
  exact Nat.lt_succ_of_le (wsRunsAux_take_le t false off)

theorem splitWsAux_true_all_ws (s : List Char) (h : ∀ c ∈ s, c.isWhitespace) :
    splitWsAux true s = [[]] := by
  induction s with
  | nil => simp [splitWsAux]
  | cons c cs ih =>
    have hc : c.isWhitespace := h c (List.mem_cons_self c cs)
    simp [splitWsAux, hc, ih fun x hx => h x (List.mem_cons_of_mem c hx)]

theorem splitWs_all_ws (s : List Char) (h : ∀ c ∈ s, c.isWhitespace)
    (hne : s ≠ []) : splitWs s = [[], []] := by
  cases s with
  | nil => exact absurd rfl hne
  | cons c cs =>
    have hc : c.isWhitespace := h c (List.mem_cons_self c cs)
    simp [splitWs, splitWsAux, hc,
      splitWsAux_true_all_ws cs fun x hx => h x (List.mem_cons_of_mem c hx)]

theorem run_cons (v : List Voice) (s : St) (a : Act) (rest : List Act) :
    run v s (a :: rest) =
      ((run v (step v s a).1 rest).1,
        (step v s a).2 ++ (run v (step v s a).1 rest).2) := rfl

theorem countEnd_append (sid : Nat) (l1 l2 : List Ev) :
    countEnd sid (l1 ++ l2) = countEnd sid l1 + countEnd sid l2 := by
  induction l1 with
  | nil => simp [countEnd]
  | cons e rest ih =>
    cases e
    all_goals simp [countEnd, ih]
    all_goals omega

theorem wcIndices_append (l1 l2 : List Ev) :
    wcIndices (l1 ++ l2) = wcIndices l1 ++ wcIndices l2 := by
  induction l1 with
  | nil => simp [wcIndices]
  | cons e rest ih => cases e <;> simp [wcIndices, ih]

theorem inv_init : Inv initSt := by
  refine ⟨?_, ?_, ?_⟩
  · intro k hk; simp [initSt] at hk
  · intro k hk; simp [initSt] at hk
  · intro o ho; simp [initSt] at ho

theorem pauseStep_frame (s : St) :
    (pauseStep s).1.utterance = s.utterance ∧
    (pauseStep s).1.currentText = s.currentText ∧
    (pauseStep s).1.currentWord = s.currentWord ∧
    (pauseStep s).1.wordIndex = s.wordIndex ∧
    (pauseStep s).1.words = s.words ∧
    (pauseStep s).1.onWordChange = s.onWordChange ∧
    (pauseStep s).1.onEnd = s.onEnd ∧
    (pauseStep s).1.engineCurrent = s.engineCurrent ∧
    (pauseStep s).1.nextSid = s.nextSid := by
  unfold pauseStep
  split <;> exact ⟨rfl, rfl, rfl, rfl, rfl, rfl, rfl, rfl, rfl⟩

theorem resumeStep_frame (s : St) :
    (resumeStep s).1.utterance = s.utterance ∧
    (resumeStep s).1.currentText = s.currentText ∧
    (resumeStep s).1.currentWord = s.currentWord ∧
    (resumeStep s).1.wordIndex = s.wordIndex ∧
    (resumeStep s).1.words = s.words ∧
    (resumeStep s).1.onWordChange = s.onWordChange ∧
    (resumeStep s).1.onEnd = s.onEnd ∧
    (resumeStep s).1.engineCurrent = s.engineCurrent ∧
    (resumeStep s).1.nextSid = s.nextSid := by
  unfold resumeStep
  split <;> exact ⟨rfl, rfl, rfl, rfl, rfl, rfl, rfl, rfl, rfl⟩

theorem boundaryStep_frame (s : St) (w : Bool) (i : Nat) :
    (boundaryStep s w i).1.utterance = s.utterance ∧
    (boundaryStep s w i).1.currentText = s.currentText ∧
    (boundaryStep s w i).1.isPlaying = s.isPlaying ∧
    (boundaryStep s w i).1.words = s.words ∧
    (boundaryStep s w i).1.onWordChange = s.onWordChange ∧
    (boundaryStep s w i).1.onEnd = s.onEnd ∧
    (boundaryStep s w i).1.engineCurrent = s.engineCurrent ∧
    (boundaryStep s w i).1.nextSid = s.nextSid := by
  cases hE : s.engineCurrent with
  | none => simp [boundaryStep, hE]
  | some k => cases w <;> simp [boundaryStep, hE]

theorem completeStep_frame (s : St) :
    (completeStep s).1.onEnd = s.onEnd ∧
    (completeStep s).1.nextSid = s.nextSid := by
  cases hE : s.engineCurrent with
  | none => simp [completeStep, hE]
  | some k => simp [completeStep, hE]

theorem pauseStep_events (sid : Nat) (s : St) :
    countEnd sid (pauseStep s).2 = 0 := by
  unfold pauseStep
  split <;> simp [countEnd]

theorem resumeStep_events (sid : Nat) (s : St) :
    countEnd sid (resumeStep s).2 = 0 := by
  unfold resumeStep
  split <;> simp [countEnd]

theorem boundaryStep_events (sid : Nat) (s : St) (w : Bool) (i : Nat) :
    countEnd sid (boundaryStep s w i).2 = 0 := by
  cases hE : s.engineCurrent with
  | none => simp [boundaryStep, hE, countEnd]
  | some k =>
    cases hW : s.onWordChange <;> cases w <;>
      simp [boundaryStep, hE, hW, countEnd]

theorem inv_step (v : List Voice) (s : St) (a : Act) (h : Inv s) :
    Inv (step v s a).1 := by
  obtain ⟨h1, h2, h3⟩ := h
  cases a with
  | speak t orate ovn hwc hed =>
    refine ⟨?_, ?_, ?_⟩
    · intro k hk
      simp [step, speakStep, speakRaw, stopStep] at hk ⊢
      omega
    · intro k hk
      simp [step, speakStep, speakRaw, stopStep] at hk ⊢
      cases hed
      · simp
      · simp
        omega
    · intro o ho
      simp [step, speakStep, speakRaw, stopStep] at ho ⊢
      cases hed
      · simp at ho
      · simp at ho
        omega
  | stop =>
    refine ⟨?_, ?_, ?_⟩
    · intro k hk; simp [step, stopStep] at hk
    · intro k hk; simp [step, stopStep] at hk
    · intro o ho
      simp [step, stopStep] at ho ⊢
      exact h3 o ho
  | pause =>
    obtain ⟨_, _, _, _, _, _, ho, he, hn⟩ := pauseStep_frame s
    exact ⟨fun k hk => hn ▸ h1 k (he ▸ hk),
      fun k hk => ho ▸ h2 k (he ▸ hk),
      fun o hoo => hn ▸ h3 o (ho ▸ hoo)⟩
  | resume =>
    obtain ⟨_, _, _, _, _, _, ho, he, hn⟩ := resumeStep_frame s
    exact ⟨fun k hk => hn ▸ h1 k (he ▸ hk),
      fun k hk => ho ▸ h2 k (he ▸ hk),
      fun o hoo => hn ▸ h3 o (ho ▸ hoo)⟩
  | toggle =>
    simp only [step, toggleStep]
    by_cases hp : s.isPlaying
    · simp only [hp, if_true]
      obtain ⟨_, _, _, _, _, _, ho, he, hn⟩ := pauseStep_frame s
      exact ⟨fun k hk => hn ▸ h1 k (he ▸ hk),
        fun k hk => ho ▸ h2 k (he ▸ hk),
        fun o hoo => hn ▸ h3 o (ho ▸ hoo)⟩
    · simp only [hp, if_false]
      obtain ⟨_, _, _, _, _, _, ho, he, hn⟩ := resumeStep_frame s
      exact ⟨fun k hk => hn ▸ h1 k (he ▸ hk),
        fun k hk => ho ▸ h2 k (he ▸ hk),
        fun o hoo => hn ▸ h3 o (ho ▸ hoo)⟩
  | boundary w i =>
    obtain ⟨_, _, _, _, _, ho, he, hn⟩ := boundaryStep_frame s w i
    exact ⟨fun k hk => hn ▸ h1 k (he ▸ hk),
      fun k hk => ho ▸ h2 k (he ▸ hk),
      fun o hoo => hn ▸ h3 o (ho ▸ hoo)⟩
  | complete =>
    refine ⟨?_, ?_, ?_⟩
    · intro k hk
      cases hE : s.engineCurrent <;> simp [step, completeStep, hE] at hk
    · intro k hk
      cases hE : s.engineCurrent <;> simp [step, completeStep, hE] at hk
    · intro o ho
      obtain ⟨hoo, hnn⟩ := completeStep_frame s
      simp only [step] at ho ⊢
      rw [hnn]
      exact h3 o (hoo ▸ ho)

theorem dead_step (v : List Voice) (s : St) (a : Act) (sid : Nat)
    (hInv : Inv s) (hDead : Dead sid s) :
    Dead sid (step v s a).1 ∧ countEnd sid (step v s a).2 = 0 := by
  obtain ⟨hlt, hne⟩ := hDead
  cases a with
  | speak t orate ovn hwc hed =>
    refine ⟨⟨?_, ?_⟩, ?_⟩
    · simp [step, speakStep, speakRaw, stopStep]
      omega
    · simp [step, speakStep, speakRaw, stopStep]
      omega
    · simp [step, speakStep, speakRaw, stopStep, countEnd]
  | stop =>
    refine ⟨⟨?_, ?_⟩, ?_⟩
    · simpa [step, stopStep] using hlt
    · simp [step, stopStep]
    · simp [step, stopStep, countEnd]
  | pause =>
    obtain ⟨_, _, _, _, _, _, _, he, hn⟩ := pauseStep_frame s
    exact ⟨⟨hn ▸ hlt, he ▸ hne⟩, pauseStep_events sid s⟩
  | resume =>
    obtain ⟨_, _, _, _, _, _, _, he, hn⟩ := resumeStep_frame s
    exact ⟨⟨hn ▸ hlt, he ▸ hne⟩, resumeStep_events sid s⟩
  | toggle =>
    simp only [step, toggleStep]
    by_cases hp : s.isPlaying
    · simp only [hp, if_true]
      obtain ⟨_, _, _, _, _, _, _, he, hn⟩ := pauseStep_frame s
      exact ⟨⟨hn ▸ hlt, he ▸ hne⟩, pauseStep_events sid s⟩
    · simp only [hp, if_false]
      obtain ⟨_, _, _, _, _, _, _, he, hn⟩ := resumeStep_frame s
      exact ⟨⟨hn ▸ hlt, he ▸ hne⟩, resumeStep_events sid s⟩
  | boundary w i =>
    obtain ⟨_, _, _, _, _, _, he, hn⟩ := boundaryStep_frame s w i
    exact ⟨⟨hn ▸ hlt, he ▸ hne⟩, boundaryStep_events sid s w i⟩
  | complete =>
    cases hE : s.engineCurrent with
    | none =>
      refine ⟨⟨?_, ?_⟩, ?_⟩
      · simpa [step, completeStep, hE] using hlt
      · simp [step, completeStep, hE]
      · simp [step, completeStep, hE, countEnd]
    | some k =>
      have hk : k ≠ sid := fun hkk => hne (hkk ▸ hE)
      refine ⟨⟨?_, ?_⟩, ?_⟩
      · simpa [step, completeStep, hE] using hlt
      · simp [step, completeStep, hE]
      · cases hO : s.onEnd with
        | none => simp [step, completeStep, hE, hO, countEnd]
        | some o =>
          have ho : o = k := by
            rcases hInv.2.1 k hE with hnone | hsome
            · rw [hO] at hnone; exact absurd hnone (by simp)
            · rw [hO] at hsome; exact Option.some_injective _ hsome
          simp [step, completeStep, hE, hO, countEnd, ho, hk]

theorem dead_run (v : List Voice) (acts : List Act) :
    ∀ s sid, Inv s → Dead sid s → countEnd sid (run v s acts).2 = 0 := by
  induction acts with
  | nil => intro s sid _ _; simp [run, countEnd]
  | cons a rest ih =>
    intro s sid hInv hDead
    rw [run_cons, countEnd_append]
    obtain ⟨hd, hz⟩ := dead_step v s a sid hInv hDead
    rw [hz, ih _ sid (inv_step v s a hInv) hd]

theorem emit_step (v : List Voice) (s : St) (a : Act) (sid : Nat)
    (hInv : Inv s) (h : countEnd sid (step v s a).2 ≠ 0) :
    countEnd sid (step v s a).2 = 1 ∧ Dead sid (step v s a).1 := by
  cases a with
  | speak t orate ovn hwc hed =>
    exact absurd (by simp [step, speakStep, speakRaw, stopStep, countEnd]) h
  | stop => exact absurd (by simp [step, stopStep, countEnd]) h
  | pause => exact absurd (pauseStep_events sid s) h
  | resume => exact absurd (resumeStep_events sid s) h
  | toggle =>
    simp only [step, toggleStep] at h ⊢
    by_cases hp : s.isPlaying
    · rw [if_pos hp] at h; exact absurd (pauseStep_events sid s) h
    · rw [if_neg hp] at h; exact absurd (resumeStep_events sid s) h
  | boundary w i => exact absurd (boundaryStep_events sid s w i) h
  | complete =>
    cases hE : s.engineCurrent with
    | none => exact absurd (by simp [step, completeStep, hE, countEnd]) h
    | some k =>
      cases hO : s.onEnd with
      | none => exact absurd (by simp [step, completeStep, hE, hO, countEnd]) h
      | some o =>
        by_cases hos : o = sid
        · refine ⟨by simp [step, completeStep, hE, hO, countEnd, hos], ?_, ?_⟩
          · have : o < s.nextSid := hInv.2.2 o hO
            have hn : (completeStep s).1.nextSid = s.nextSid :=
              (completeStep_frame s).2
            simp only [step]
            omega
          · simp [step, completeStep, hE]
        · exact absurd (by simp [step, completeStep, hE, hO, countEnd, hos]) h

theorem once_all (v : List Voice) (acts : List Act) :
    ∀ s sid, Inv s → countEnd sid (run v s acts).2 ≤ 1 := by
  induction acts with
  | nil => intro s sid _; simp [run, countEnd]
  | cons a rest ih =>
    intro s sid hInv
    rw [run_cons, countEnd_append]
    have hInv2 := inv_step v s a hInv
    by_cases hz : countEnd sid (step v s a).2 = 0
    · rw [hz]
      simpa using ih _ sid hInv2
    · obtain ⟨h1, hd⟩ := emit_step v s a sid hInv hz
      rw [h1, dead_run v rest _ sid hInv2 hd]

theorem inv_run (v : List Voice) (acts : List Act) :
    ∀ s, Inv s → Inv (run v s acts).1 := by
  induction acts with
  | nil => intro s h; simpa [run] using h
  | cons a rest ih =>
    intro s h
    rw [run_cons]
    exact ih _ (inv_step v s a h)

theorem boundary_run_no_engine (v : List Voice) (offsets : List Nat) :
    ∀ s, s.engineCurrent = none →
      (run v s (offsets.map (fun i => Act.boundary true i))).2 = [] := by
  induction offsets with
  | nil => intro s _; simp [run]
  | cons off rest ih =>
    intro s hE
    rw [List.map_cons, run_cons]
    have hstep : step v s (Act.boundary true off) = (s, []) := by
      simp [step, boundaryStep, hE]
    rw [hstep]
    simpa using ih s hE

theorem boundary_run_no_wc (v : List Voice) (offsets : List Nat) :
    ∀ s, s.onWordChange = none →
      wcIndices (run v s (offsets.map (fun i => Act.boundary true i))).2 = [] := by
  induction offsets with
  | nil => intro s _; simp [run, wcIndices]
  | cons off rest ih =>
    intro s hW
    rw [List.map_cons, run_cons, wcIndices_append]
    cases hE : s.engineCurrent with
    | none =>
      have hstep : step v s (Act.boundary true off) = (s, []) := by
        simp [step, boundaryStep, hE]
      rw [hstep]
      simp [wcIndices, ih s hW]
    | some k =>
      have hstep : step v s (Act.boundary true off) =
          ({ s with
              wordIndex := boundaryWordIndex s.currentText off
              currentWord := s.words.get? (boundaryWordIndex s.currentText off) },
            []) := by
        simp [step, boundaryStep, hE, hW]
      rw [hstep]
      simp only [wcIndices, List.nil_append]
      exact ih _ hW

theorem boundary_run_indices (v : List Voice) (offsets : List Nat) :
    ∀ s k o, s.engineCurrent = some k → s.onWordChange = some o →
      wcIndices (run v s (offsets.map (fun i => Act.boundary true i))).2
        = offsets.map (boundaryWordIndex s.currentText) := by
  induction offsets with
  | nil => intro s k o _ _; simp [run, wcIndices]
  | cons off rest ih =>
    intro s k o hE hW
    rw [List.map_cons, run_cons, wcIndices_append]
    have hstep : step v s (Act.boundary true off) =
        ({ s with
            wordIndex := boundaryWordIndex s.currentText off
            currentWord := s.words.get? (boundaryWordIndex s.currentText off) },
          [Ev.wordChange o (s.words.get? (boundaryWordIndex s.currentText off))
            (boundaryWordIndex s.currentText off)]) := by
      simp [step, boundaryStep, hE, hW]
    rw [hstep]
    simp only [wcIndices, List.map_cons, List.cons_append, List.nil_append,
      List.cons.injEq]
    exact ⟨trivial, ih _ k o hE hW⟩

/-- C1: over every sequence of controller operations and engine events from
the initial state, the onEnd callback of a session fires at most once; a
session that is no longer current on the engine side (stopped or
superseded) never fires onEnd in any continuation; and delivery of the
natural-completion event to the current session with its onEnd stored
fires exactly that one onEnd invocation. -/
theorem onEnd_exactly_once (v : List Voice) (a1 a2 : List Act) (sid : Nat) :
    countEnd sid (run v initSt (a1 ++ a2)).2 ≤ 1 ∧
    (sid < (run v initSt a1).1.nextSid →
      (run v initSt a1).1.engineCurrent ≠ some sid →
      countEnd sid (run v (run v initSt a1).1 a2).2 = 0) ∧
    ((run v initSt a1).1.engineCurrent = some sid →
      (run v initSt a1).1.onEnd = some sid →
      (completeStep (run v initSt a1).1).2 = [Ev.ended sid]) := by
  refine ⟨once_all v (a1 ++ a2) initSt sid inv_init, ?_, ?_⟩
  · intro hlt hne
    exact dead_run v a2 _ sid (inv_run v a1 initSt inv_init) ⟨hlt, hne⟩
  · intro hE hO
    simp [completeStep, hE, hO]

theorem onEnd_exactly_once_witness :
    (countEnd 0 (run [] initSt (c1a ++ c1b)).2 ≤ 1) ∧
    (countEnd 0 (run [] (run [] initSt (c1a ++ [Act.stop])).1 [Act.complete]).2 = 0) ∧
    ((completeStep (run [] initSt c1a).1).2 = [Ev.ended 0]) :=
  ⟨(onEnd_exactly_once [] c1a c1b 0).1,
   (onEnd_exactly_once [] (c1a ++ [Act.stop]) [Act.complete] 0).2.1
     (by decide) (by decide),
   (onEnd_exactly_once [] c1a [] 0).2.2 (by decide) (by decide)⟩

/-- C2: the claim describes the intended behavior of changeRate (restart
from the remaining words at the new rate), but the source calls this.stop()
before reading this.words and this.utterance: at the claimed input (live
session over the text one-two-three-four with wordIndex advanced to 1 by a
boundary event at offset 4) the remaining-words computation sees the
already-cleared empty words list, and reading .voice on the nulled
utterance throws a TypeError, embedded here as the result none. -/
theorem changeRate_throws :
    c2state.wordIndex = 1 ∧
    c2state.words = splitWs ("one two three four".toList) ∧
    c2state.utterance.isSome = true ∧
    changeRate [] c2state (3 / 2) = none := by decide

/-- C3: within one session, boundary events delivered with non-decreasing
character offsets produce a non-decreasing sequence of word indices through
the onWordChange invocations. -/
theorem wordIndex_monotone (v : List Voice) (s : St) (offsets : List Nat)
    (h : offsets.Pairwise (fun a b => a ≤ b)) :
    (wcIndices (run v s (offsets.map (fun i => Act.boundary true i))).2).Pairwise
      (fun a b => a ≤ b) := by
  cases hE : s.engineCurrent with
  | none =>
    rw [boundary_run_no_engine v offsets s hE]
    exact List.Pairwise.nil
  | some k =>
    cases hW : s.onWordChange with
    | none =>
      rw [boundary_run_no_wc v offsets s hW]
      exact List.Pairwise.nil
    | some o =>
      rw [boundary_run_indices v offsets s k o hE hW]
      exact h.map (boundaryWordIndex s.currentText)
        (fun a b hab => boundaryWordIndex_mono s.currentText hab)

theorem wordIndex_monotone_witness :
    (([0, 4, 16] : List Nat).Pairwise (fun a b => a ≤ b)) ∧
    (wcIndices (run [] c3state
        (([0, 4, 16] : List Nat).map (fun i => Act.boundary true i))).2).Pairwise
      (fun a b => a ≤ b) :=
  ⟨by decide, wordIndex_monotone [] c3state [0, 4, 16] (by decide)⟩

/-- C4: after speak, wordIndex is 0 and words is the whitespace split of the
text; a word-boundary event at any offset at most the text length computes
a wordIndex that is a valid index into words, so the words lookup passed to
onWordChange is defined. -/
theorem wordIndex_valid (v : List Voice) (s : St) (t : List Char)
    (orate : Option ℚ) (ovn : Option String) (hwc hed : Bool) (off : Nat)
    (_hoff : off ≤ t.length) :
    ((speakStep v s t orate ovn hwc hed).1.wordIndex = 0) ∧
    ((speakStep v s t orate ovn hwc hed).1.words = splitWs t) ∧
    ((boundaryStep (speakStep v s t orate ovn hwc hed).1 true off).1.wordIndex
        < (speakStep v s t orate ovn hwc hed).1.words.length) ∧
    (((speakStep v s t orate ovn hwc hed).1.words.get?
        ((boundaryStep (speakStep v s t orate ovn hwc hed).1 true off).1.wordIndex)).isSome) := by
  have hbi : (boundaryStep (speakStep v s t orate ovn hwc hed).1 true off).1.wordIndex
      = boundaryWordIndex t off := by
    simp [speakStep, speakRaw, stopStep, boundaryStep]
  have hlt : boundaryWordIndex t off < (splitWs t).length :=
    boundaryWordIndex_lt_length t off
  refine ⟨rfl, rfl, ?_, ?_⟩
  · rw [hbi]; exact hlt
  · rw [hbi]
    have hsome : (splitWs t).get? (boundaryWordIndex t off) =
        some ((splitWs t).get ⟨boundaryWordIndex t off, hlt⟩) :=
      List.get?_eq_get hlt
    have hw : (speakStep v s t orate ovn hwc hed).1.words = splitWs t := rfl
    rw [hw, hsome]
    rfl

theorem wordIndex_valid_witness :
    (4 ≤ ("The quick brown fox".toList).length) ∧
    ((boundaryStep (speakStep [] initSt ("The quick brown fox".toList)
        none none true true).1 true 4).1.wordIndex
      < (speakStep [] initSt ("The quick brown fox".toList)
        none none true true).1.words.length) :=
  ⟨by decide,
   (wordIndex_valid [] initSt ("The quick brown fox".toList)
     none none true true 4 (by decide)).2.2.1⟩

/-- C5: TTSManager.stop is a total function (it cannot throw) and is
idempotent: a second stop leaves the state of the first stop unchanged, and
after any stop the session fields are cleared (text empty, words empty,
wordIndex 0, not playing), independent of whether a session was active. -/
theorem stop_idempotent (s : St) :
    (stopStep (stopStep s).1).1 = (stopStep s).1 ∧
    (stopStep s).1.currentText = [] ∧
    (stopStep s).1.words = [] ∧
    (stopStep s).1.wordIndex = 0 ∧
    (stopStep s).1.isPlaying = false :=
  ⟨rfl, rfl, rfl, rfl, rfl⟩

/-- C6: the concrete scenario speak of the-quick-brown-fox at rate 1, with
boundary events at offsets 4 and 16 and then natural completion, invokes
onWordChange with (quick, 1) then (fox, 3), fires onEnd exactly once, and
leaves isCurrentlyPlaying false. -/
theorem scenario_quick_fox :
    (run [] initSt c6acts).2 =
      [Ev.engineCancel,
       Ev.engineSpeak ("The quick brown fox".toList) 1 none,
       Ev.wordChange 0 (some ("quick".toList)) 1,
       Ev.wordChange 0 (some ("fox".toList)) 3,
       Ev.ended 0] ∧
    countEnd 0 (run [] initSt c6acts).2 = 1 ∧
    isCurrentlyPlaying (run [] initSt c6acts).1 = false := by decide

/-- C7: when the requested voice name has no exact match among the engine
voices, speak resolves no voice, submits the utterance with the default
voice (no voice set on the engine command), and completes without any
error: the emitted commands are exactly the cancel and the speak command
with voice none, and the stored utterance carries voice none. -/
theorem voice_miss_default (v : List Voice) (s : St) (t : List Char)
    (orate : Option ℚ) (n : String) (hwc hed : Bool)
    (h : ∀ voice ∈ v, voice.name ≠ n) :
    resolveVoice v (some n) = none ∧
    (speakStep v s t orate (some n) hwc hed).2 =
      [Ev.engineCancel, Ev.engineSpeak t (rateD orate) none] ∧
    ((speakStep v s t orate (some n) hwc hed).1.utterance.map Utt.voice)
      = some none := by
  have hres : resolveVoice v (some n) = none := by
    unfold resolveVoice
    by_cases hn : n = ""
    · simp [hn]
    · have hfind : v.find? (fun vo => vo.name == n) = none := by
        rw [List.find?_eq_none]
        intro x hx
        simpa using h x hx
      simp [hn, hfind]
  refine ⟨hres, ?_, ?_⟩
  · simp [speakStep, speakRaw, stopStep, hres]
  · simp [speakStep, speakRaw, stopStep, hres]

theorem voice_miss_default_witness :
    ((∀ voice ∈ [(⟨"Alice", "en-US"⟩ : Voice)], voice.name ≠ "Bob")) ∧
    ((speakStep [(⟨"Alice", "en-US"⟩ : Voice)] initSt ("Hello world".toList)
        none (some "Bob") false false).2 =
      [Ev.engineCancel, Ev.engineSpeak ("Hello world".toList) 1 none]) :=
  ⟨by decide,
   (voice_miss_default [(⟨"Alice", "en-US"⟩ : Voice)] initSt
     ("Hello world".toList) none "Bob" false false (by decide)).2.1⟩

/-- C8 counterexample: for the whitespace-only text consisting of one
space, speak computes a TWO-element words list of two empty tokens, not a
one-element list containing the whole whitespace string as the claim
states. -/
theorem whitespace_words_cex :
    (speakStep [] initSt (" ".toList) none none false false).1.words = [[], []] ∧
    (speakStep [] initSt (" ".toList) none none false false).1.words ≠ [(" ".toList)] ∧
    ((speakStep [] initSt (" ".toList) none none false false).1.words).length = 2 := by
  decide

/-- C8 (amended): speak does not reject empty or whitespace-only text and
wordIndex stays 0; the empty text yields the one-element words list holding
the empty token, and a non-empty all-whitespace text yields the two-element
words list of two empty tokens. -/
theorem whitespace_speak_amended (v : List Voice) (s : St) (t : List Char)
    (orate : Option ℚ) (ovn : Option String) (hwc hed : Bool)
    (hws : ∀ c ∈ t, c.isWhitespace) :
    ((speakStep v s t orate ovn hwc hed).1.wordIndex = 0) ∧
    (t = [] → (speakStep v s t orate ovn hwc hed).1.words = [[]]) ∧
    (t ≠ [] → (speakStep v s t orate ovn hwc hed).1.words = [[], []]) := by
  refine ⟨rfl, ?_, ?_⟩
  · intro ht
    subst ht
    rfl
  · intro ht
    have hw : (speakStep v s t orate ovn hwc hed).1.words = splitWs t := rfl
    rw [hw, splitWs_all_ws t hws ht]

theorem whitespace_speak_amended_witness :
    (∀ c ∈ (" ".toList), c.isWhitespace) ∧
    ((" ".toList : List Char) ≠ []) ∧
    ((speakStep [] initSt (" ".toList) none none false false).1.words = [[], []]) :=
  ⟨by decide, by decide,
   (whitespace_speak_amended [] initSt (" ".toList) none none false false
     (by decide)).2.2 (by decide)⟩

/-- C9: pause followed by resume changes nothing but the isPlaying flag:
currentText, words, wordIndex, the utterance, currentWord, both callbacks,
the engine-side utterance and the session counter are all exactly as just
before the pause. -/
theorem pause_resume_preserves_progress (s : St) (_h : s.utterance.isSome) :
    ((resumeStep (pauseStep s).1).1.currentText = s.currentText) ∧
    ((resumeStep (pauseStep s).1).1.words = s.words) ∧
    ((resumeStep (pauseStep s).1).1.wordIndex = s.wordIndex) ∧
    ((resumeStep (pauseStep s).1).1.utterance = s.utterance) ∧
    ((resumeStep (pauseStep s).1).1.currentWord = s.currentWord) ∧
    ((resumeStep (pauseStep s).1).1.onWordChange = s.onWordChange) ∧
    ((resumeStep (pauseStep s).1).1.onEnd = s.onEnd) ∧
    ((resumeStep (pauseStep s).1).1.engineCurrent = s.engineCurrent) ∧
    ((resumeStep (pauseStep s).1).1.nextSid = s.nextSid) := by
  obtain ⟨p1, p2, p3, p4, p5, p6, p7, p8, p9⟩ := pauseStep_frame s
  obtain ⟨r1, r2, r3, r4, r5, r6, r7, r8, r9⟩ := resumeStep_frame (pauseStep s).1
  exact ⟨r2.trans p2, r5.trans p5, r4.trans p4, r1.trans p1, r3.trans p3,
    r6.trans p6, r7.trans p7, r8.trans p8, r9.trans p9⟩

theorem pause_resume_witness :
    (c9state.utterance.isSome = true) ∧
    ((resumeStep (pauseStep c9state).1).1.wordIndex = c9state.wordIndex) ∧
    ((resumeStep (pauseStep c9state).1).1.currentText = c9state.currentText) :=
  ⟨by decide,
   (pause_resume_preserves_progress c9state (by decide)).2.2.1,
   (pause_resume_preserves_progress c9state (by decide)).1⟩

/-- C10: addHistoryEntry places the id-tagged new entry at the front of the
stored history, keeps at most 100 entries, and the entries it keeps after
the new one are exactly the first 99 previously stored (the newest), so
the oldest entries beyond the cap are discarded. -/
theorem addHistoryEntry_caps (now : Nat) (entry : HistoryEntryInput)
    (history : List HistoryEntry) :
    addHistoryEntry now entry history =
      (⟨toString now, entry.url, entry.timestamp, entry.extractedText⟩ : HistoryEntry)
        :: history.take 99 ∧
    (addHistoryEntry now entry history).length ≤ 100 ∧
    (addHistoryEntry now entry history).head? =
      some ⟨toString now, entry.url, entry.timestamp, entry.extractedText⟩ := by
  refine ⟨?_, ?_, ?_⟩
  · simp [addHistoryEntry]
  · simp only [addHistoryEntry, List.length_take]
    omega
  · simp [addHistoryEntry]

end ImageTextReader

